import Mathlib

/-!
Verification of the ordered-multiset-partition module.

An ordered multiset partition (OMP) is embedded as the list of its blocks.
A sage `Set` block is rendered as the sorted list of its distinct letters
(letters are naturals), so a valid block is a nonempty strictly increasing
list.  All operations below are translated from
`sage/combinat/multiset_partition_ordered.py`.
-/

namespace OMPVerify

open List

/-- Ascending sort on lists of naturals; models python `sorted` and the
normalisation a sage `Set` applies to its elements. -/
def sortNat (l : List ℕ) : List ℕ := l.insertionSort (· ≤ ·)

/-- An ordered multiset partition: the list of its blocks, each block the
sorted list of its distinct letters. -/
abbrev OMP := List (List ℕ)

/-- The invariant of `OrderedMultisetPartition`: every block is a nonempty
set, i.e. a nonempty strictly increasing list in this embedding. -/
def ValidOMP (c : OMP) : Prop := ∀ B ∈ c, B ≠ [] ∧ B.Chain' (· < ·)

/-- `_concatenate`: concatenation of a list of iterables. -/
def concatenate (c : List (List ℕ)) : List ℕ := c.flatten

/-- `_get_multiset`: the sorted tuple of the concatenation of the blocks;
`OrderedMultisetPartition.multiset()` returns exactly this. -/
def multiset (c : OMP) : List ℕ := sortNat (concatenate c)

/-- `OrderedMultisetPartition.length()`: the number of blocks. -/
def omp_length (c : OMP) : ℕ := c.length

/-- `OrderedMultisetPartition.order()`: the total number of letters. -/
def omp_order (c : OMP) : ℕ := (c.map List.length).sum

/-- `_descents(w)`: the list of positions `j` with `w[j] > w[j+1]`. -/
def descents (w : List ℕ) : List ℕ :=
  (List.range (w.length - 1)).filter (fun j => decide (w.getD (j+1) 0 < w.getD j 0))

/-- One step of the right-to-left loop of
`OrderedMultisetPartition.minimaj_blocks`: split the block `B` into the
letters `≤ C[0][0]` (lower) and the rest (upper) and prepend
`sorted(upper) ++ sorted(lower)` to the word list `C`. -/
def minimaj_step (B : List ℕ) (C : List (List ℕ)) : List (List ℕ) :=
  let pivot := (C.headD []).headD 0
  let lower := B.filter (fun j => decide (j ≤ pivot))
  let upper := B.filter (fun j => !(decide (j ≤ pivot)))
  (sortNat upper ++ sortNat lower) :: C

/-- `OrderedMultisetPartition.minimaj_blocks()`: sort the blocks from right
to left, starting from the last block sorted ascending. -/
def minimaj_blocks : OMP → List (List ℕ)
  | [] => []
  | [B] => [sortNat B]
  | B :: B' :: rest => minimaj_step B (minimaj_blocks (B' :: rest))

/-- `OrderedMultisetPartition.minimaj_word()`: concatenation of the
minimaj blocks. -/
def minimaj_word (c : OMP) : List ℕ := concatenate (minimaj_blocks c)

/-- `OrderedMultisetPartition.minimaj()`: `sum(D) + len(D)` where `D` is
the list of descents of the minimaj word. -/
def minimaj (c : OMP) : ℕ :=
  (descents (minimaj_word c)).sum + (descents (minimaj_word c)).length

/-- Prepend the letter `a` to the first block of a block list (the `else`
branch of the `_break_at_descents` loop, which extends the current block). -/
def consHead (a : ℕ) : List (List ℕ) → List (List ℕ)
  | [] => [[a]]
  | blk :: blks => (a :: blk) :: blks

/-- `_break_at_descents(alpha, weak)`: split `alpha` into blocks, starting a
new block after each position with `alpha[i-1] > alpha[i]`, or also after
equalities when `weak` is set. -/
def break_at_descents (weak : Bool) : List ℕ → List (List ℕ)
  | [] => []
  | [a] => [[a]]
  | a :: b :: rest =>
    if a > b ∨ (a = b ∧ weak = true) then
      [a] :: break_at_descents weak (b :: rest)
    else
      consHead a (break_at_descents weak (b :: rest))

/-- The set of distinct rearrangements of `X`, modelling the external
collaborator `Permutations_mset(X)`. -/
def permsOfMset (X : List ℕ) : List (List ℕ) := X.permutations'.dedup

/-- `OrderedMultisetPartitions_X.cardinality()`: `0` for the empty multiset,
otherwise the sum over all distinct permutations of the flattened multiset
of the product of `2^(len(k)-1)` over the blocks `k` of
`_break_at_descents(alpha)` (with its default `weak=True`). -/
def cardinality_X (X : List ℕ) : ℕ :=
  if X = [] then 0
  else ((permsOfMset X).map (fun α =>
    ((break_at_descents true α).map (fun k => 2 ^ (k.length - 1))).prod)).sum

/-- Written from the spec's words for claim C1 (refinement comparison): the
maximal weakly-decreasing runs of a word, i.e. split exactly after each
strict ascent `alpha[i-1] < alpha[i]`. -/
def weakly_decreasing_runs : List ℕ → List (List ℕ)
  | [] => []
  | [a] => [[a]]
  | a :: b :: rest =>
    if a < b then [a] :: weakly_decreasing_runs (b :: rest)
    else consHead a (weakly_decreasing_runs (b :: rest))

/-- Written from the spec's words for claim C1: sum over all permutations of
the flattened multiset of the product of `2^(L-1)` over the maximal
weakly-decreasing runs of length `L` of that permutation. -/
def spec_formula_C1 (X : List ℕ) : ℕ :=
  ((permsOfMset X).map (fun α =>
    ((weakly_decreasing_runs α).map (fun k => 2 ^ (k.length - 1))).prod)).sum

/-- All lists of length `len` with entries in `{0, …, maxPart}`, modelling
`IntegerListsLex(min_part=0, max_part=maxPart, length=len)`. -/
def boundedWords (maxPart : ℕ) : ℕ → List (List ℕ)
  | 0 => [[]]
  | len+1 => (List.range (maxPart+1)).flatMap
      (fun a => (boundedWords maxPart len).map (a :: ·))

/-- python `max(w)` on a word (junk value `0` on the empty word, which the
source never reaches). -/
def maxg (w : List ℕ) : ℕ := w.foldr max 0

/-- `_is_initial_segment(sorted(set(w)))`: the set of values of `w` is
`{0, 1, …, max(w)}`. -/
def is_initial_segment (w : List ℕ) : Bool :=
  sortNat w.dedup = List.range (maxg w + 1)

/-- The grouping step of `_refine_block`: `a[l]` collects the entries of `X`
whose position carries the label `l` in the word `w`, for `l ≤ max(w)`. -/
def groupByLabel (X w : List ℕ) : List (List ℕ) :=
  (List.range (maxg w + 1)).map (fun l =>
    sortNat (((X.zip w).filter (fun p => decide (p.2 = l))).map Prod.fst))

/-- The weakly increasing (`min_slope=0`) test on label words. -/
def weaklyIncreasing : List ℕ → Bool
  | [] => true
  | [_] => true
  | a :: b :: l => a ≤ b && weaklyIncreasing (b :: l)

/-- `_refine_block(S, strong)`: all refinements of the block `S`, obtained
from the label words of length `|S|` over `{0,…,|S|-1}` (weakly increasing
ones when `strong`) whose values form an initial segment. -/
def refine_block (S : List ℕ) (strong : Bool) : List (List (List ℕ)) :=
  let n := S.length
  let ws := (boundedWords (n-1) n).filter
    (fun w => (!strong || weaklyIncreasing w) && is_initial_segment w)
  (ws.map (fun w => groupByLabel S w)).dedup

/-- `OrderedMultisetPartition.finer(strong)`: the refinements of `c`, i.e.
all concatenations of one refinement of each block. -/
def finer (strong : Bool) (c : OMP) : List OMP :=
  if c = [] then [[]]
  else ((c.map (fun B => refine_block B strong)).sections.map
    (fun choice => choice.flatten)).dedup

/-- The slices `self[sum(grouping[:i]) : sum(grouping[:i+1])]` used by
`fatten`. -/
def sliceBy : List ℕ → OMP → List OMP
  | [], _ => []
  | g :: gs, blocks => blocks.take g :: sliceBy gs (blocks.drop g)

/-- `OrderedMultisetPartition.fatten(grouping)`; `none` models the
`ValueError` raised on a grouping of the wrong sum or a merge that would
repeat a letter. -/
def fatten (c : OMP) (grouping : List ℕ) : Option OMP :=
  if grouping.sum ≠ omp_length c then none
  else if (sliceBy grouping c).all
      (fun s => decide (s.flatten.dedup.length = s.flatten.length)) then
    some ((sliceBy grouping c).map (fun s => sortNat s.flatten))
  else none

/-- Fuelled enumeration of the compositions of `n` (first part `i+1`, then
a composition of the remainder); correct whenever `fuel ≥ n`. -/
def compsF : ℕ → ℕ → List (List ℕ)
  | _, 0 => [[]]
  | 0, _+1 => []
  | fuel+1, n+1 => (List.range (n+1)).flatMap
      (fun i => (compsF fuel (n - i)).map (fun t => (i+1) :: t))

/-- `Compositions(n)`: all lists of positive integers summing to `n`. -/
def comps (n : ℕ) : List (List ℕ) := compsF n n

/-- `OrderedMultisetPartition.fatter()`: all successful fattenings of `c`
along compositions of its length. -/
def fatter (c : OMP) : List OMP :=
  ((comps (omp_length c)).filterMap (fatten c)).dedup

/-- `_iterator_weight(weight)` for the sorted multiset `X`: the empty
partition for the empty multiset, otherwise every strong refinement of the
fattest partition of every distinct permutation of `X`. -/
def iterator_weight (X : List ℕ) : List OMP :=
  if X = [] then [[]]
  else (permsOfMset X).flatMap (fun α => finer true (break_at_descents true α))

/-- `OrderedMultisetPartition.weight()` rendered as the sorted multiset;
two letter-frequency dictionaries agree iff the sorted multisets agree. -/
def weight (c : OMP) : List ℕ := multiset c

/-- The head-trimming loop of `is_finer` (`while co1[0] == co2[0]`); `none`
models the `IndexError` raised when a list runs out during the comparison. -/
def trimHeads : OMP → OMP → Option (OMP × OMP)
  | x :: xs, y :: ys =>
    if x = y then trimHeads xs ys else some (x :: xs, y :: ys)
  | _, _ => none

/-- `OrderedMultisetPartition.is_finer(co)`: weight test, then trim the
common prefix and suffix, then membership in `finer()`.  `none` models the
`IndexError` raised by the trimming loops (as happens on equal inputs). -/
def is_finer (a b : OMP) : Option Bool :=
  if weight a ≠ weight b then some false
  else
    match trimHeads a b with
    | none => none
    | some (a1, b1) =>
      match trimHeads a1.reverse b1.reverse with
      | none => none
      | some (a2, b2) =>
        some (decide (a2.reverse ∈ finer false b2.reverse))

/-- `self._n` alias `OrderedMultisetPartition.size()`: the sum of the
multiset when every letter is a positive integer, otherwise `None`. -/
def omp_size (c : OMP) : Option ℕ :=
  if (multiset c).all (fun a => decide (0 < a)) then some (multiset c).sum
  else none

/-- Python 2 `<` on `int`-or-`None`: `None` is below every integer. -/
def py2lt (x y : Option ℕ) : Bool :=
  match x, y with
  | none, none => false
  | none, some _ => true
  | some _, none => false
  | some a, some b => decide (a < b)

/-- Python truthiness of `self._n` (`None` and `0` are falsy). -/
def sizeTruthy (x : Option ℕ) : Bool :=
  match x with
  | none => false
  | some n => decide (n ≠ 0)

/-- Lexicographic strict `<` on lists, given a strict `<` on the letters
(python list and sage `Word` comparison). -/
def lexLtBy {α : Type} (lt : α → α → Bool) : List α → List α → Bool
  | [], [] => false
  | [], _ :: _ => true
  | _ :: _, [] => false
  | x :: xs, y :: ys =>
    if lt x y then true else if lt y x then false else lexLtBy lt xs ys

/-- Strict `<` on naturals as a Bool. -/
def natLt (a b : ℕ) : Bool := decide (a < b)

/-- python `str` of a natural number, as the list of its decimal digit
character codes. -/
def natStr (n : ℕ) : List ℕ := (Nat.toDigits 10 n).map Char.toNat

/-- `OrderedMultisetPartition.soll_gt(other)`: compare size, then order,
then length; on ties compare lexicographically.  In the all-numeric branch
the source rebinds `co1`/`co2` but returns the unassigned `w1 > w2`, a
`NameError`, modelled as `none`; the non-numeric branch compares the
string-encoded sorted blocks. -/
def soll_gt (c1 c2 : OMP) : Option Bool :=
  if py2lt (omp_size c2) (omp_size c1) then some true
  else if py2lt (omp_size c1) (omp_size c2) then some false
  else if omp_order c2 < omp_order c1 then some true
  else if omp_order c1 < omp_order c2 then some false
  else if omp_length c2 < omp_length c1 then some true
  else if omp_length c1 < omp_length c2 then some false
  else if sizeTruthy (omp_size c1) && sizeTruthy (omp_size c2) then none
  else
    some (lexLtBy (lexLtBy (lexLtBy natLt))
      (c2.map (fun k => (sortNat k).map natStr))
      (c1.map (fun k => (sortNat k).map natStr)))

/-- The comparison the numeric branch of `soll_gt` is documented (and
doctested) to return: lexicographic on the block sequences, each block
keyed by `[sum(k)] ++ sorted(k)`. -/
def soll_numeric_lex_gt (c1 c2 : OMP) : Bool :=
  lexLtBy (lexLtBy natLt)
    (c2.map (fun k => k.sum :: sortNat k))
    (c1.map (fun k => k.sum :: sortNat k))

/-- A constraint value: an integer, a weight dictionary, or an alphabet. -/
inductive CVal where
  | nat (n : ℕ)
  | dict (d : List (ℕ × ℕ))
  | alph (s : List ℕ)
deriving DecidableEq

/-- Look a key up in a constraint dictionary. -/
def cget (cs : List (String × CVal)) (k : String) : Option CVal :=
  (cs.find? (fun kv => kv.1 == k)).map Prod.snd

/-- Remove a key from a constraint dictionary (`pop`). -/
def cpop (k : String) (cs : List (String × CVal)) : List (String × CVal) :=
  cs.filter (fun kv => kv.1 != k)

/-- Set a key in a constraint dictionary. -/
def cset (k : String) (v : CVal) (cs : List (String × CVal)) :
    List (String × CVal) :=
  if (cs.find? (fun kv => kv.1 == k)).isSome then
    cs.map (fun kv => if kv.1 == k then (k, v) else kv)
  else cs ++ [(k, v)]

/-- Python truthiness of a constraint value. -/
def cvalTruthy : CVal → Bool
  | .nat n => n != 0
  | .dict d => !d.isEmpty
  | .alph s => !s.isEmpty

/-- An integer alphabet expands to `{1, …, m}`. -/
def expandAlph : CVal → CVal
  | .nat n => .alph (List.range' 1 n)
  | v => v

/-- The numeric value of an optional constraint entry. -/
def cnat : Option CVal → Option ℕ
  | some (.nat n) => some n
  | _ => none

/-- The `assert min <= max` plus min=max collapse applied by
`OrderedMultisetPartitions.__init__` to a min/max bound pair (defaults:
`min = 0`, `max = infinity`). -/
def checkBounds (kmin kmax kcollapse : String) (cs : List (String × CVal)) :
    Except String (List (String × CVal)) :=
  let mn := (cnat (cget cs kmin)).getD 0
  match cnat (cget cs kmax) with
  | none => .ok cs
  | some mx =>
    if mn ≤ mx then
      if mn = mx then .ok (cset kcollapse (.nat mn) (cpop kmin (cpop kmax cs)))
      else .ok cs
    else .error ("AssertionError: min exceeds max")

/-- The constraint canonicalisation of `OrderedMultisetPartitions.__init__`:
normalise the alphabet, let `weight` subsume the alphabet/order/size keys,
let `length` (resp. `order`) collapse its min/max bounds, check the bound
assertions, and drop entries with falsy values except size/order/length.
Unknown keys are never inspected. -/
def omp_init (cs : List (String × CVal)) :
    Except String (List (String × CVal)) :=
  let cs := match cget cs "alphabet" with
    | some v => cset "alphabet" (expandAlph v) cs
    | none => cs
  let cs := if (cget cs "weight").isSome then
      cpop "alphabet" (cpop "min_order" (cpop "order" (cpop "max_order"
        (cpop "size" cs))))
    else cs
  let cs := if (cget cs "length").isSome then
      cpop "min_length" (cpop "max_length" cs)
    else cs
  match checkBounds "min_length" "max_length" "length" cs with
  | .error e => .error e
  | .ok cs =>
    let cs := if (cget cs "order").isSome then
        cpop "min_order" (cpop "max_order" cs)
      else cs
    match checkBounds "min_order" "max_order" "order" cs with
    | .error e => .error e
    | .ok cs =>
      .ok (cs.filter (fun kv => cvalTruthy kv.2
        || (kv.1 == "size" || kv.1 == "order" || kv.1 == "length")))

/-- `OrderedMultisetPartitions.__classcall_private__` with no positional
argument: validate/normalise `weight` and `alphabet` and build the generic
parent via `__init__`; unknown keys flow through without any check. -/
def omp_classcall (cs : List (String × CVal)) :
    Except String (List (String × CVal)) :=
  match cget cs "weight" with
  | some (.dict w) =>
    if w.all (fun p => decide (0 < p.2)) then
      omp_init (match cget cs "alphabet" with
        | some v => cset "alphabet" (expandAlph v) cs
        | none => cs)
    else .error ("ValueError: weight must be a dictionary of letter-frequencies")
  | some _ => .error ("ValueError: weight must be a dictionary of letter-frequencies")
  | none =>
    omp_init (match cget cs "alphabet" with
      | some v => cset "alphabet" (expandAlph v) cs
      | none => cs)

/-- The multiset described by a weight dictionary. -/
def expandWeight (d : List (ℕ × ℕ)) : List ℕ :=
  sortNat (d.flatMap (fun p => List.replicate p.2 p.1))

/-- `OrderedMultisetPartitions._satisfies_constraints.pass_test`: the test
for one constraint entry; an unrecognised key reaches the end of the
`if` chain and python returns `None`, modelled as `none`. -/
def pass_test (c : OMP) : String × CVal → Option Bool
  | ("size", v) => some (match v with
      | .nat n => omp_size c == some n
      | _ => false)
  | ("length", v) => some (match v with
      | .nat n => omp_length c == n
      | _ => false)
  | ("min_length", v) => some (match v with
      | .nat n => decide (n ≤ omp_length c)
      | _ => false)
  | ("max_length", v) => some (match v with
      | .nat n => decide (omp_length c ≤ n)
      | _ => false)
  | ("weight", v) => some (match v with
      | .dict d => multiset c == expandWeight d
      | _ => false)
  | ("alphabet", v) => some (match v with
      | .nat n => c.flatten.all (fun a => a ∈ List.range' 1 n)
      | .alph s => c.flatten.all (fun a => a ∈ s)
      | .dict d => c.flatten.all (fun a => a ∈ d.map Prod.fst))
  | ("order", v) => some (match v with
      | .nat n => omp_order c == n
      | _ => false)
  | ("min_order", v) => some (match v with
      | .nat n => decide (n ≤ omp_order c)
      | _ => false)
  | ("max_order", v) => some (match v with
      | .nat n => decide (omp_order c ≤ n)
      | _ => false)
  | _ => none

/-- `OrderedMultisetPartitions._satisfies_constraints`: every truthy
constraint entry must pass its test; python treats the `None` verdict of
an unknown key as failure. -/
def satisfies_constraints (cs : List (String × CVal)) (c : OMP) : Bool :=
  (cs.filter (fun kv => cvalTruthy kv.2)).all
    (fun kv => (pass_test c kv).getD false)

/-- Fuelled enumeration of `IntegerListsLex(n, min_slope=1, min_part=1)`
generalised over the running minimum part `lo`: strictly increasing lists
of integers `≥ lo` summing to `n`, generated by choosing the smallest part
first; correct whenever `fuel ≥ n` and `lo ≥ 1`. -/
def distinctListsF : ℕ → ℕ → ℕ → List (List ℕ)
  | _, _, 0 => [[]]
  | 0, _, _+1 => []
  | fuel+1, lo, n+1 =>
    (List.range' lo (n + 2 - lo)).flatMap
      (fun s => (distinctListsF fuel (s+1) (n + 1 - s)).map (s :: ·))

/-- Strictly increasing lists of integers `≥ lo` summing to `n`. -/
def distinctLists (lo n : ℕ) : List (List ℕ) := distinctListsF n lo n

/-- The number of partitions of `d` into distinct positive parts. -/
def numDistinctPartitions (d : ℕ) : ℕ := (distinctLists 1 d).length

/-- `_iterator_size(n)`: the ordered multiset partitions of size `n` — for
each composition of `n`, each choice of one distinct-part list per part. -/
def ompsOfSize (n : ℕ) : List OMP :=
  (comps n).flatMap (fun α => (α.map (fun a => distinctLists 1 a)).sections)

/-- Coefficientwise sum of two dense polynomial coefficient lists. -/
def polyAdd : List ℕ → List ℕ → List ℕ
  | [], qs => qs
  | p, [] => p
  | a :: p, b :: qs => (a + b) :: polyAdd p qs

/-- Multiplication by `t^k` on coefficient lists. -/
def polyShift (k : ℕ) (p : List ℕ) : List ℕ := List.replicate k 0 ++ p

/-- The coefficient list of `prod([1 + t**k for k in range(1, n+1)])`:
each factor multiplies the accumulator `p` into `p + t^k * p`. -/
def partsPoly (n : ℕ) : List ℕ :=
  (List.range' 1 n).foldl (fun p k => polyAdd p (polyShift k p)) [1]

/-- `.coefficients()` of the product: the (exponent, coefficient) pairs of
its nonzero monomials, in increasing exponent order. -/
def coeffPairs (n : ℕ) : List (ℕ × ℕ) :=
  (partsPoly n).enum.filter (fun e => e.2 ≠ 0)

/-- `partspoly_coeff(d)`: the coefficient entry of the `d`-th listed
nonzero pair (`partspoly[d][0]`). -/
def partspoly_coeff (n d : ℕ) : ℕ := ((coeffPairs n).getD d (0, 0)).2

/-- `OrderedMultisetPartitions_n.cardinality()`: the hard-coded table for
`n ≤ 5`, otherwise the sum over all compositions of `n` of the products of
coefficients of the distinct-parts generating function. -/
def cardinality_n (n : ℕ) : ℕ :=
  if n ≤ 5 then [1,1,2,5,11,25].getD n 0
  else ((comps n).map (fun α => (α.map (partspoly_coeff n)).prod)).sum

/-- The claim's formula: sum over the integer compositions of `n` of the
product over the parts of the number of distinct-part partitions. -/
def formula_C4 (n : ℕ) : ℕ :=
  ((comps n).map (fun α => (α.map numDistinctPartitions).prod)).sum

/-- Strictly increasing lists with parts in `{1, …, m}` summing to `e`,
built by deciding whether the largest allowed part occurs. -/
def boundedDistinct : ℕ → ℕ → List (List ℕ)
  | 0, e => if e = 0 then [[]] else []
  | m+1, e =>
    boundedDistinct m e ++
      (if m+1 ≤ e then (boundedDistinct m (e - (m+1))).map (· ++ [m+1]) else [])

/-- Membership in `OrderedMultisetPartitions_n`: valid blocks of positive
integers with total sum `n`. -/
def SizedOMP (n : ℕ) (c : OMP) : Prop :=
  ValidOMP c ∧ (∀ B ∈ c, ∀ x ∈ B, 0 < x) ∧ c.flatten.sum = n

/-- `_partial_sum(lst)` without its leading `0`. -/
def partial_sumFrom (s : ℕ) : List ℕ → List ℕ
  | [] => []
  | x :: xs => (s + x) :: partial_sumFrom (s + x) xs

/-- `_partial_sum(lst)`: the partial sums `[0, lst[0], lst[0]+lst[1], …]`. -/
def partial_sum (lst : List ℕ) : List ℕ := 0 :: partial_sumFrom 0 lst

/-- `OrderedMultisetPartition.to_tableau()`: the minimaj bijection; rows are
the reversed descent-to-descent segments of the minimaj word with the
block-beginning positions excised, listed top-down, with the bottom row the
list of first letters of the minimaj blocks. -/
def to_tableau (c : OMP) : List (List ℕ) :=
  if c = [] then []
  else
    let bb := minimaj_blocks c
    let b := bb.map (fun blk => blk.headD 0)
    let beginning := partial_sum (c.map List.length)
    let w := bb.flatten
    let D := 0 :: descents w ++ [w.length]
    let segs := (List.range (D.length - 1)).map (fun i =>
      (((List.range' (D.getD i 0 + 1) (D.getD (i+1) 0 - D.getD i 0)).filter
        (fun j => !(decide (j ∈ beginning)))).map (fun j => w.getD j 0)).reverse)
    segs.reverse ++ [b]

/-- One round (`for j in range(breaks[f], breaks[f+1]+1)`) of the
`_to_minimaj_blocks` reconstruction: letters of the current row are
appended to each block in the window, filtered by the boundary tests
against the (never-changing) first letters. -/
def tmb_step (firsts breaks : List ℕ) (f : ℕ) (row : List ℕ)
    (mu : List (List ℕ)) : List (List ℕ) :=
  mu.enum.map (fun p =>
    if breaks.getD f 0 ≤ p.1 ∧ p.1 ≤ breaks.getD (f+1) 0 then
      p.2 ++ row.filter (fun i =>
        (decide (firsts.getD p.1 0 < i) || decide (p.1 = breaks.getD f 0))
        && (decide (p.1 = breaks.getD (f+1) 0)
            || decide (i ≤ firsts.getD (p.1 + 1) 0)))
    else p.2)

/-- `_to_minimaj_blocks(T)`: rebuild the minimaj blocks from the rows of a
tableau: start from the singletons of the bottom row, then distribute each
higher row (reversed) over the descent-delimited windows of blocks. -/
def to_minimaj_blocks (T : List (List ℕ)) : List (List ℕ) :=
  let lastRow := T.getLast?.getD []
  let mu0 := lastRow.map (fun i => [i])
  let breaks := 0 :: descents lastRow ++ [mu0.length - 1]
  let rows := (T.dropLast.map List.reverse).reverse
  (List.range (breaks.length - 1)).foldl
    (fun mu f => tmb_step lastRow breaks f (rows.getD f []) mu) mu0

/-- `MinimajCrystal.from_tableau` at the level of partitions: the rebuilt
minimaj blocks, re-normalised to sets (sorted) in their original order. -/
def from_tableau_omp (T : List (List ℕ)) : OMP :=
  (to_minimaj_blocks T).map sortNat

/-- `Subsets_sk(A, a)` (external collaborator): the size-`a` subsets of the
sorted alphabet `A`, as sorted lists. -/
def subsets_sk (A : List ℕ) (a : ℕ) : List (List ℕ) := List.sublistsLen a A

/-- `Compositions(d, length=k, max_part=maxPart)` (external collaborator). -/
def compsLen (d k maxPart : ℕ) : List (List ℕ) :=
  (comps d).filter (fun α => α.length == k && α.all (· ≤ maxPart))

/-- `_iterator_order(A, d, [k])`: the ordered multiset partitions of order
`d` over alphabet `A` with exactly `k` blocks — one `a`-subset of `A` per
part `a` of each composition; this is how the family
`OrderedMultisetPartitions(A, d, length=k)` iterates and counts. -/
def iterator_order (A : List ℕ) (d k : ℕ) : List OMP :=
  (compsLen d k A.length).flatMap (fun α => (α.map (subsets_sk A)).sections)

/-- Modelled from the spec: the bracketing state of the signature rule for
the tensor product of elementary type-A letter crystals (the operators
`w.e(i)` / `w.f(i)` live in `sage.combinat.crystals`, outside `src/`).
Letter `i` contributes `+`, letter `i+1` contributes `−`; a `+` cancels the
nearest unmatched `−` to its left.  Returns the unmatched `−` positions
(most recent first) and the unmatched `+` positions (left to right). -/
def bracketState (w : List ℕ) (i : ℕ) : List ℕ × List ℕ :=
  w.enum.foldl (fun st p =>
    if p.2 = i then
      match st.1 with
      | [] => (st.1, st.2 ++ [p.1])
      | _ :: rest => (rest, st.2)
    else if p.2 = i + 1 then (p.1 :: st.1, st.2)
    else st) ([], [])

/-- Modelled from the spec: the raising operator `e(i)` on a word — turn
the leftmost unmatched `i+1` into `i`, or report absence. -/
def crystal_e (i : ℕ) (w : List ℕ) : Option (List ℕ) :=
  match (bracketState w i).1.getLast? with
  | none => none
  | some pos => some (w.set pos i)

/-- Modelled from the spec: the lowering operator `f(i)` on a word — turn
the rightmost unmatched `i` into `i+1`, or report absence. -/
def crystal_f (i : ℕ) (w : List ℕ) : Option (List ℕ) :=
  match (bracketState w i).2.getLast? with
  | none => none
  | some pos => some (w.set pos (i + 1))

/-- `MinimajCrystal.__init__`: the module generators of
`crystals.Minimaj(n, ell, k)` — one element `(word, breaks)` per ordered
multiset partition of order `ell` with `k` blocks over `{1,…,n}`, with
`word` the flattened tableau and `breaks` the partial sums of the row
lengths. -/
def minimaj_crystal_gens (n ell k : ℕ) : List (List ℕ × List ℕ) :=
  (iterator_order (List.range' 1 n) ell k).map (fun co =>
    ((to_tableau co).flatten, partial_sum ((to_tableau co).map List.length)))

/-- All results of the crystal operators `e(i)`/`f(i)`, `1 ≤ i ≤ n-1`, on
one crystal element (breaks pass through unchanged). -/
def crystal_ops (n : ℕ) (x : List ℕ × List ℕ) : List (List ℕ × List ℕ) :=
  (List.range' 1 (n - 1)).flatMap (fun i =>
    (match crystal_e i x.1 with | none => [] | some w => [(w, x.2)])
    ++ (match crystal_f i x.1 with | none => [] | some w => [(w, x.2)]))

/-- One closure round: add every operator image. -/
def crystal_closure_step (n : ℕ) (S : List (List ℕ × List ℕ)) :
    List (List ℕ × List ℕ) :=
  (S ++ S.flatMap (crystal_ops n)).dedup

/-- Fuelled closure of a generator set under the crystal operators: the
crystal's element list once a fixpoint is reached. -/
def crystal_closure (n : ℕ) : ℕ → List (List ℕ × List ℕ) →
    List (List ℕ × List ℕ)
  | 0, S => S
  | fuel+1, S => crystal_closure n fuel (crystal_closure_step n S)

/-- The element list of `crystals.Minimaj(3, 4, 2)`. -/
def minimajCrystal342 : List (List ℕ × List ℕ) :=
  crystal_closure 3 4 (minimaj_crystal_gens 3 4 2)

/-- The boundary condition between consecutive runs: the first letter of
`s` does not exceed the last letter of `r` (a weak descent). -/
def RunBoundary (r s : List ℕ) : Prop := s.headD 0 ≤ r.getLastD 0

/-- `runs` is the decomposition of `alpha` into maximal strictly increasing
runs: nonempty strictly increasing segments concatenating to `alpha`, with
a weak descent at every boundary. -/
def IsIncRunDecomp (alpha : List ℕ) (runs : List (List ℕ)) : Prop :=
  runs.flatten = alpha
  ∧ (∀ r ∈ runs, r ≠ [] ∧ r.Chain' (· < ·))
  ∧ runs.Chain' RunBoundary

/-- Computable strict-increase test on a block. -/
def strictlyIncreasing : List ℕ → Bool
  | [] => true
  | [_] => true
  | a :: b :: l => a < b && strictlyIncreasing (b :: l)

/-- Computable version of the `ValidOMP` invariant. -/
def isValidOMP (c : OMP) : Bool :=
  c.all (fun B => !B.isEmpty && strictlyIncreasing B)

/- ### Helper lemmas on sorting and the minimaj word -/

theorem sortNat_perm (l : List ℕ) : sortNat l ~ l := perm_insertionSort _ l

theorem sortNat_sorted (l : List ℕ) : Sorted (· ≤ ·) (sortNat l) :=
  sorted_insertionSort _ l

theorem sum_map_succ (D : List ℕ) : (D.map (· + 1)).sum = D.sum + D.length := by
  induction D with
  | nil => rfl
  | cons a t ih => simp [List.map_cons, List.sum_cons, ih]; omega

/-- The minimaj reordering only permutes the letters of the partition. -/
theorem minimaj_blocks_join_perm (c : OMP) : (minimaj_blocks c).flatten ~ c.flatten := by
  induction c with
  | nil => exact Perm.refl _
  | cons B rest ih =>
    cases rest with
    | nil => simpa [minimaj_blocks] using sortNat_perm B
    | cons B' rest' =>
      show (minimaj_step B (minimaj_blocks (B' :: rest'))).flatten ~ _
      unfold minimaj_step
      simp only [List.flatten_cons]
      refine Perm.append ?_ ih
      refine Perm.trans (Perm.append (sortNat_perm _) (sortNat_perm _)) ?_
      refine Perm.trans (List.perm_append_comm) ?_
      exact List.filter_append_perm _ B

/-- C2 helper: summing `position + 1` over the descents equals
`sum + count`. -/
theorem minimaj_eq_sum_succ (c : OMP) :
    minimaj c = ((descents (minimaj_word c)).map (· + 1)).sum := by
  rw [minimaj, sum_map_succ]

/-- C10 helper: the minimaj word sorts back to the multiset. -/
theorem sort_minimaj_word (c : OMP) : sortNat (minimaj_word c) = multiset c := by
  refine List.eq_of_perm_of_sorted ?_ (sortNat_sorted _) (sortNat_sorted _)
  exact ((sortNat_perm _).trans (minimaj_blocks_join_perm c)).trans
    (sortNat_perm (concatenate c)).symm

/- ### Refinement and coarsening (claim C6) -/

theorem sortNat_eq_self {l : List ℕ} (h : Sorted (· ≤ ·) l) : sortNat l = l :=
  h.insertionSort_eq

theorem sorted_of_chain'_lt {l : List ℕ} (h : l.Chain' (· < ·)) :
    Sorted (· ≤ ·) l :=
  (List.chain'_iff_pairwise.mp h).imp Nat.le_of_lt

theorem nodup_of_chain'_lt {l : List ℕ} (h : l.Chain' (· < ·)) : l.Nodup :=
  List.Sorted.nodup (List.chain'_iff_pairwise.mp h)

theorem le_maxg {w : List ℕ} {a : ℕ} (ha : a ∈ w) : a ≤ maxg w := by
  induction w with
  | nil => cases ha
  | cons x xs ih =>
    rcases List.mem_cons.mp ha with rfl | h
    · exact Nat.le_max_left _ _
    · exact le_trans (ih h) (Nat.le_max_right _ _)

theorem mem_boundedWords {m : ℕ} : ∀ {k : ℕ} {w : List ℕ},
    w ∈ boundedWords m k ↔ w.length = k ∧ ∀ a ∈ w, a ≤ m := by
  intro k
  induction k with
  | zero =>
    intro w
    simp only [boundedWords, List.mem_singleton]
    constructor
    · rintro rfl; exact ⟨rfl, by intro a ha; cases ha⟩
    · rintro ⟨hlen, _⟩; exact List.eq_nil_of_length_eq_zero hlen
  | succ k ih =>
    intro w
    simp only [boundedWords, List.mem_flatMap, List.mem_map, List.mem_range]
    constructor
    · rintro ⟨a, ha, v, hv, rfl⟩
      obtain ⟨hlen, hall⟩ := ih.mp hv
      refine ⟨by simp [hlen], ?_⟩
      intro x hx
      rcases List.mem_cons.mp hx with rfl | h
      · omega
      · exact hall x h
    · rintro ⟨hlen, hall⟩
      cases w with
      | nil => simp at hlen
      | cons a v =>
        have hale := hall a (List.mem_cons_self _ _)
        refine ⟨a, by omega, v,
          ih.mpr ⟨by simpa using hlen,
            fun x hx => hall x (List.mem_cons_of_mem _ hx)⟩, rfl⟩

theorem maxg_replicate_zero (n : ℕ) : maxg (List.replicate n 0) = 0 := by
  induction n with
  | zero => rfl
  | succ k ih => simp only [List.replicate_succ, maxg, List.foldr_cons] at ih ⊢; omega

theorem weaklyIncreasing_replicate (n a : ℕ) :
    weaklyIncreasing (List.replicate n a) = true := by
  induction n with
  | zero => rfl
  | succ k ih =>
    cases k with
    | zero => rfl
    | succ k' =>
      show weaklyIncreasing (a :: a :: List.replicate k' a) = true
      have : weaklyIncreasing (a :: a :: List.replicate k' a)
          = (decide (a ≤ a) && weaklyIncreasing (a :: List.replicate k' a)) := rfl
      rw [this]
      simpa using ih

theorem zip_replicate_self (l : List ℕ) (a : ℕ) :
    l.zip (List.replicate l.length a) = l.map (fun x => (x, a)) := by
  induction l with
  | nil => rfl
  | cons x xs ih => simp [List.replicate_succ, ih]

theorem groupByLabel_replicate_zero (S : List ℕ) :
    groupByLabel S (List.replicate S.length 0) = [sortNat S] := by
  unfold groupByLabel
  rw [maxg_replicate_zero, zip_replicate_self]
  show [sortNat _] = _
  congr 1
  rw [List.filter_map]
  simp [Function.comp_def]

theorem self_mem_refine_block {S : List ℕ} (hne : S ≠ [])
    (hsort : S.Chain' (· < ·)) (strong : Bool) :
    [S] ∈ refine_block S strong := by
  unfold refine_block
  refine List.mem_dedup.mpr (List.mem_map.mpr ⟨List.replicate S.length 0, ?_, ?_⟩)
  · rw [List.mem_filter]
    constructor
    · refine mem_boundedWords.mpr ⟨List.length_replicate _ _, ?_⟩
      intro a ha
      rw [List.eq_of_mem_replicate ha]
      omega
    · rw [Bool.and_eq_true]
      refine ⟨?_, ?_⟩
      · cases strong <;> simp [weaklyIncreasing_replicate]
      · unfold is_initial_segment
        have hlen : S.length ≠ 0 := fun h => hne (List.eq_nil_of_length_eq_zero h)
        rw [List.replicate_dedup hlen, maxg_replicate_zero]
        decide
  · rw [groupByLabel_replicate_zero, sortNat_eq_self (sorted_of_chain'_lt hsort)]

theorem mem_refine_block_ex {S : List ℕ} {strong : Bool} {t : List (List ℕ)}
    (ht : t ∈ refine_block S strong) :
    ∃ w, w.length = S.length ∧ t = groupByLabel S w := by
  unfold refine_block at ht
  obtain ⟨w, hw, rfl⟩ := List.mem_map.mp (List.mem_dedup.mp ht)
  obtain ⟨hwb, _⟩ := List.mem_filter.mp hw
  exact ⟨w, (mem_boundedWords.mp hwb).1, rfl⟩

theorem groupByLabel_length (S w : List ℕ) :
    (groupByLabel S w).length = maxg w + 1 := by
  simp [groupByLabel]

theorem refine_block_pos {S : List ℕ} {strong : Bool} {t : List (List ℕ)}
    (ht : t ∈ refine_block S strong) : 1 ≤ t.length := by
  obtain ⟨w, _, rfl⟩ := mem_refine_block_ex ht
  rw [groupByLabel_length]
  omega

theorem refine_block_len_one {S : List ℕ} {strong : Bool} {t : List (List ℕ)}
    (hsort : S.Chain' (· < ·))
    (ht : t ∈ refine_block S strong) (h1 : t.length = 1) : t = [S] := by
  obtain ⟨w, hlen, rfl⟩ := mem_refine_block_ex ht
  rw [groupByLabel_length] at h1
  have hw0 : w = List.replicate S.length 0 := by
    rw [← hlen]
    refine List.eq_replicate_of_mem ?_
    intro b hb
    have := le_maxg hb
    omega
  rw [hw0, groupByLabel_replicate_zero,
    sortNat_eq_self (sorted_of_chain'_lt hsort)]

theorem mem_finer_iff {strong : Bool} {c : OMP} (hc : c ≠ []) {d : OMP} :
    d ∈ finer strong c ↔ ∃ choice,
      List.Forall₂ (fun t B => t ∈ refine_block B strong) choice c
      ∧ d = choice.flatten := by
  unfold finer
  rw [if_neg hc, List.mem_dedup, List.mem_map]
  constructor
  · rintro ⟨choice, hch, rfl⟩
    exact ⟨choice, List.forall₂_map_right_iff.mp (List.mem_sections.mp hch), rfl⟩
  · rintro ⟨choice, hch, rfl⟩
    exact ⟨choice, List.mem_sections.mpr (List.forall₂_map_right_iff.mpr hch), rfl⟩

theorem flatten_map_singleton (c : OMP) : (c.map (fun B => [B])).flatten = c := by
  induction c <;> simp_all

theorem self_mem_finer {c : OMP} (h : ValidOMP c) (strong : Bool) :
    c ∈ finer strong c := by
  rcases eq_or_ne c [] with rfl | hc
  · simp [finer]
  · refine (mem_finer_iff hc).mpr ⟨c.map (fun B => [B]), ?_, (flatten_map_singleton c).symm⟩
    refine List.forall₂_map_left_iff.mpr (List.forall₂_same.mpr ?_)
    intro B hB
    exact self_mem_refine_block (h B hB).1 (h B hB).2 strong

theorem finer_flatten_length {choice : List (List (List ℕ))} {c : OMP}
    (h : List.Forall₂ (fun t B => t ∈ refine_block B false) choice c) :
    c.length ≤ choice.flatten.length := by
  induction h with
  | nil => simp
  | @cons t B choice' c' ht htail ih =>
    have h1 : 1 ≤ t.length := refine_block_pos ht
    simp only [List.flatten_cons, List.length_append, List.length_cons]
    omega

theorem finer_flatten_eq : ∀ {choice : List (List (List ℕ))} {c : OMP},
    List.Forall₂ (fun t B => t ∈ refine_block B false) choice c →
    ValidOMP c → choice.flatten.length = c.length → choice.flatten = c := by
  intro choice c h
  induction h with
  | nil => intro _ _; rfl
  | @cons t B choice' c' ht htail ih =>
    intro hval hlen
    have h1 : 1 ≤ t.length := refine_block_pos ht
    have h2 : c'.length ≤ choice'.flatten.length := finer_flatten_length htail
    simp only [List.flatten_cons, List.length_append, List.length_cons] at hlen
    have hB := hval B (List.mem_cons_self _ _)
    have ht1 : t.length = 1 := by omega
    have hteq := refine_block_len_one hB.2 ht ht1
    subst hteq
    have hrest : choice'.flatten = c' :=
      ih (fun x hx => hval x (List.mem_cons_of_mem _ hx)) (by omega)
    simp [hrest]

/- fatter side -/

theorem sliceBy_length : ∀ (gs : List ℕ) (blocks : OMP),
    (sliceBy gs blocks).length = gs.length := by
  intro gs
  induction gs with
  | nil => intro blocks; rfl
  | cons g gs ih => intro blocks; simp [sliceBy, ih]

theorem mem_compsF : ∀ (fuel n : ℕ), n ≤ fuel → ∀ (l : List ℕ),
    (l ∈ compsF fuel n ↔ l.sum = n ∧ ∀ x ∈ l, 0 < x) := by
  intro fuel
  induction fuel with
  | zero =>
    intro n hn l
    interval_cases n
    simp only [compsF, List.mem_singleton]
    constructor
    · rintro rfl; exact ⟨rfl, by intro x hx; cases hx⟩
    · rintro ⟨hsum, hpos⟩
      cases l with
      | nil => rfl
      | cons x t =>
        have := hpos x (List.mem_cons_self _ _)
        simp only [List.sum_cons] at hsum
        omega
  | succ fuel ih =>
    intro n hn l
    cases n with
    | zero =>
      simp only [compsF, List.mem_singleton]
      constructor
      · rintro rfl; exact ⟨rfl, by intro x hx; cases hx⟩
      · rintro ⟨hsum, hpos⟩
        cases l with
        | nil => rfl
        | cons x t =>
          have := hpos x (List.mem_cons_self _ _)
          simp only [List.sum_cons] at hsum
          omega
    | succ m =>
      simp only [compsF, List.mem_flatMap, List.mem_map, List.mem_range]
      constructor
      · rintro ⟨i, hi, t, ht, rfl⟩
        obtain ⟨hsum, hpos⟩ := (ih (m - i) (by omega) t).mp ht
        refine ⟨by simp only [List.sum_cons]; omega, ?_⟩
        intro x hx
        rcases List.mem_cons.mp hx with rfl | h
        · omega
        · exact hpos x h
      · rintro ⟨hsum, hpos⟩
        cases l with
        | nil => simp at hsum
        | cons x t =>
          have hx := hpos x (List.mem_cons_self _ _)
          simp only [List.sum_cons] at hsum
          have hxle : x ≤ m + 1 := by omega
          refine ⟨x - 1, by omega, t, ?_, ?_⟩
          · exact (ih (m - (x - 1)) (by omega) t).mpr
              ⟨by omega, fun y hy => hpos y (List.mem_cons_of_mem _ hy)⟩
          · rw [Nat.sub_add_cancel hx]

theorem mem_comps {n : ℕ} {l : List ℕ} :
    l ∈ comps n ↔ l.sum = n ∧ ∀ x ∈ l, 0 < x :=
  mem_compsF n n le_rfl l

theorem length_le_sum {l : List ℕ} (h : ∀ x ∈ l, 1 ≤ x) :
    l.length ≤ l.sum := by
  induction l with
  | nil => simp
  | cons x t ih =>
    have := h x (List.mem_cons_self _ _)
    have := ih (fun y hy => h y (List.mem_cons_of_mem _ hy))
    simp only [List.length_cons, List.sum_cons]
    omega

theorem all_one_of_sum_eq_length : ∀ (l : List ℕ),
    (∀ x ∈ l, 1 ≤ x) → l.sum = l.length → l = List.replicate l.length 1 := by
  intro l
  induction l with
  | nil => intro _ _; rfl
  | cons x t ih =>
    intro h1 h2
    have hx := h1 x (List.mem_cons_self _ _)
    have ht1 : ∀ y ∈ t, 1 ≤ y := fun y hy => h1 y (List.mem_cons_of_mem _ hy)
    have hts : t.length ≤ t.sum := length_le_sum ht1
    simp only [List.sum_cons, List.length_cons] at h2
    have hx1 : x = 1 := by omega
    subst hx1
    rw [List.length_cons, List.replicate_succ]
    exact congrArg (List.cons 1) (ih ht1 (by omega))

theorem sliceBy_ones : ∀ (c : OMP),
    sliceBy (List.replicate c.length 1) c = c.map (fun B => [B]) := by
  intro c
  induction c with
  | nil => rfl
  | cons B rest ih =>
    show (B :: rest).take 1 :: sliceBy (List.replicate rest.length 1) ((B :: rest).drop 1)
        = [B] :: rest.map (fun B => [B])
    rw [show (B :: rest).take 1 = [B] from rfl,
      show (B :: rest).drop 1 = rest from rfl, ih]

theorem fatten_ones {c : OMP} (h : ValidOMP c) :
    fatten c (List.replicate c.length 1) = some c := by
  unfold fatten
  have hsum : (List.replicate c.length 1).sum = omp_length c := by
    simp [omp_length, List.sum_replicate]
  rw [if_neg (by omega)]
  rw [sliceBy_ones]
  have hall : (c.map (fun B => [B])).all
      (fun s => decide (s.flatten.dedup.length = s.flatten.length)) = true := by
    rw [List.all_eq_true]
    intro s hs
    obtain ⟨B, hB, rfl⟩ := List.mem_map.mp hs
    have hnd : B.Nodup := nodup_of_chain'_lt (h B hB).2
    simp [List.Nodup.dedup hnd]
  rw [if_pos hall]
  congr 1
  rw [List.map_map]
  have : ∀ B ∈ c, ((fun s => sortNat s.flatten) ∘ (fun B => [B])) B = id B := by
    intro B hB
    simp only [Function.comp_apply, List.flatten_cons, List.flatten_nil,
      List.append_nil, id_eq]
    exact sortNat_eq_self (sorted_of_chain'_lt (h B hB).2)
  rw [List.map_congr_left this, List.map_id]

theorem mem_fatter_iff {c d : OMP} :
    d ∈ fatter c ↔ ∃ g ∈ comps (omp_length c), fatten c g = some d := by
  unfold fatter
  rw [List.mem_dedup, List.mem_filterMap]

theorem fatten_eq_some {c : OMP} {g : List ℕ} {d : OMP}
    (h : fatten c g = some d) :
    g.sum = omp_length c ∧ d = (sliceBy g c).map (fun s => sortNat s.flatten) := by
  unfold fatten at h
  split at h
  · cases h
  · split at h
    · rename_i hsum _
      exact ⟨by omega, (Option.some.inj h).symm⟩
    · cases h

theorem fatter_mem_le {c d : OMP} (hd : d ∈ fatter c) : d.length ≤ c.length := by
  obtain ⟨g, hg, hf⟩ := mem_fatter_iff.mp hd
  obtain ⟨hsum, rfl⟩ := fatten_eq_some hf
  obtain ⟨_, hpos⟩ := mem_comps.mp hg
  rw [List.length_map, sliceBy_length]
  calc g.length ≤ g.sum := length_le_sum (fun x hx => hpos x hx)
  _ = c.length := hsum

theorem self_mem_fatter {c : OMP} (h : ValidOMP c) : c ∈ fatter c := by
  refine mem_fatter_iff.mpr ⟨List.replicate c.length 1, ?_, fatten_ones h⟩
  refine mem_comps.mpr ⟨by simp [omp_length, List.sum_replicate], ?_⟩
  intro x hx
  rw [List.eq_of_mem_replicate hx]
  omega

theorem fatter_mem_eq {c d : OMP} (h : ValidOMP c) (hd : d ∈ fatter c)
    (hlen : d.length = c.length) : d = c := by
  obtain ⟨g, hg, hf⟩ := mem_fatter_iff.mp hd
  obtain ⟨hsum, hdef⟩ := fatten_eq_some hf
  obtain ⟨_, hpos⟩ := mem_comps.mp hg
  have hsum' : g.sum = c.length := hsum
  have hglen : g.length = d.length := by
    rw [hdef, List.length_map, sliceBy_length]
  have hg1 : g = List.replicate g.length 1 :=
    all_one_of_sum_eq_length g (fun x hx => hpos x hx) (by omega)
  have : g = List.replicate c.length 1 := by rw [hg1, hglen, hlen]
  rw [this, fatten_ones h] at hf
  exact (Option.some.inj hf).symm

theorem strictlyIncreasing_iff : ∀ l : List ℕ,
    strictlyIncreasing l = true ↔ l.Chain' (· < ·) := by
  intro l
  induction l with
  | nil => simp [strictlyIncreasing]
  | cons a t ih =>
    cases t with
    | nil => simp [strictlyIncreasing]
    | cons b t' =>
      rw [show strictlyIncreasing (a :: b :: t')
          = (decide (a < b) && strictlyIncreasing (b :: t')) from rfl,
        Bool.and_eq_true, decide_eq_true_eq, List.chain'_cons, ih]

theorem isValidOMP_iff (c : OMP) : isValidOMP c = true ↔ ValidOMP c := by
  unfold isValidOMP ValidOMP
  rw [List.all_eq_true]
  refine forall_congr' (fun B => imp_congr Iff.rfl ?_)
  rw [Bool.and_eq_true, strictlyIncreasing_iff]
  constructor
  · rintro ⟨h1, h2⟩
    refine ⟨?_, h2⟩
    intro hB
    subst hB
    simp at h1
  · rintro ⟨h1, h2⟩
    refine ⟨?_, h2⟩
    cases B with
    | nil => cases h1 rfl
    | cons x xs => rfl

/-- C6: for every valid ordered multiset partition `c`, the intersection of
the set of refinements `c.finer()` with the set of coarsenings `c.fatter()`
is exactly the singleton `{c}`. -/
theorem claim_C6 : ∀ c : OMP, ValidOMP c →
    ∀ d : OMP, (d ∈ finer false c ∧ d ∈ fatter c) ↔ d = c := by
  intro c hval d
  constructor
  · rintro ⟨hfin, hfat⟩
    rcases eq_or_ne c [] with rfl | hc
    · simpa [finer] using hfin
    · obtain ⟨choice, hch, rfl⟩ := (mem_finer_iff hc).mp hfin
      have h1 : c.length ≤ choice.flatten.length := finer_flatten_length hch
      have h2 : choice.flatten.length ≤ c.length := fatter_mem_le hfat
      exact finer_flatten_eq hch hval (by omega)
  · rintro rfl
    exact ⟨self_mem_finer hval false, self_mem_fatter hval⟩

/-- Witness for `claim_C6` at the partition `[{1,4,5},{2},{1,7}]`. -/
theorem claim_C6_witness :
    ValidOMP [[1,4,5],[2],[1,7]] ∧
      ((([[1,4,5],[2],[1,7]] : OMP) ∈ finer false [[1,4,5],[2],[1,7]]
          ∧ ([[1,4,5],[2],[1,7]] : OMP) ∈ fatter [[1,4,5],[2],[1,7]]) ↔
        ([[1,4,5],[2],[1,7]] : OMP) = [[1,4,5],[2],[1,7]]) :=
  ⟨(isValidOMP_iff _).mp (by decide),
   claim_C6 [[1,4,5],[2],[1,7]] ((isValidOMP_iff _).mp (by decide))
     [[1,4,5],[2],[1,7]]⟩

/- ### Maximal strictly increasing runs (claim C1) -/

theorem break_at_descents_two (weak : Bool) (a b : ℕ) (rest : List ℕ) :
    break_at_descents weak (a :: b :: rest) =
      if a > b ∨ (a = b ∧ weak = true) then
        [a] :: break_at_descents weak (b :: rest)
      else consHead a (break_at_descents weak (b :: rest)) := rfl

theorem break_at_descents_cons (weak : Bool) (a : ℕ) (l : List ℕ) :
    ∃ t blks, break_at_descents weak (a :: l) = (a :: t) :: blks := by
  induction l generalizing a with
  | nil => exact ⟨[], [], rfl⟩
  | cons b rest ih =>
    rw [break_at_descents_two]
    by_cases h : a > b ∨ (a = b ∧ weak = true)
    · exact ⟨[], break_at_descents weak (b :: rest), by rw [if_pos h]⟩
    · obtain ⟨t, blks, he⟩ := ih b
      exact ⟨b :: t, blks, by rw [if_neg h, he]; rfl⟩

theorem getLastD_cons_cons (a b : ℕ) (t : List ℕ) :
    (a :: b :: t).getLastD 0 = (b :: t).getLastD 0 := by
  simp [List.getLastD_cons]

/-- `_break_at_descents(·, weak=True)` produces a maximal strictly
increasing run decomposition. -/
theorem isIncRunDecomp_break (α : List ℕ) :
    IsIncRunDecomp α (break_at_descents true α) := by
  induction α with
  | nil =>
    refine ⟨rfl, ?_, List.chain'_nil⟩
    intro r hr
    exact absurd hr (List.not_mem_nil r)
  | cons a l ih =>
    cases l with
    | nil =>
      refine ⟨rfl, ?_, List.chain'_singleton _⟩
      intro r hr
      rcases List.mem_singleton.mp hr with rfl
      exact ⟨by simp, List.chain'_singleton _⟩
    | cons b rest =>
      obtain ⟨hflat, hruns, hchain⟩ := ih
      obtain ⟨t, blks, he⟩ := break_at_descents_cons true b rest
      rw [break_at_descents_two]
      by_cases h : a > b ∨ (a = b ∧ (true : Bool) = true)
      · rw [if_pos h]
        refine ⟨by simpa using hflat, ?_, ?_⟩
        · intro r hr
          rcases List.mem_cons.mp hr with h1 | h2
          · subst h1; exact ⟨by simp, List.chain'_singleton _⟩
          · exact hruns r h2
        · rw [he] at hchain ⊢
          refine List.chain'_cons.mpr ⟨?_, hchain⟩
          have hba : b ≤ a := by rcases h with h | ⟨h, _⟩ <;> omega
          simpa [RunBoundary]
      · rw [if_neg h, he]
        show IsIncRunDecomp _ ((a :: b :: t) :: blks)
        rw [he] at hflat hruns hchain
        have hab : a < b := by
          by_contra hc
          push_neg at hc
          rcases Nat.eq_or_lt_of_le hc with h1 | h1
          · exact h (Or.inr ⟨h1.symm, rfl⟩)
          · exact h (Or.inl h1)
        refine ⟨?_, ?_, ?_⟩
        · simpa using hflat
        · intro r hr
          rcases List.mem_cons.mp hr with h1 | h2
          · subst h1
            have hbt := hruns (b :: t) (List.mem_cons_self _ _)
            exact ⟨by simp, List.chain'_cons.mpr ⟨hab, hbt.2⟩⟩
          · exact hruns r (List.mem_cons_of_mem _ h2)
        · cases blks with
          | nil => exact List.chain'_singleton _
          | cons s blks' =>
            have hbs : RunBoundary (b :: t) s := (List.chain'_cons.mp hchain).1
            refine List.chain'_cons.mpr ⟨?_, (List.chain'_cons.mp hchain).2⟩
            unfold RunBoundary at hbs ⊢
            rwa [getLastD_cons_cons]

/-- Appending a run to a word whose head weakly descends from the run's
last letter prepends exactly that run to the decomposition. -/
theorem break_at_descents_append (r β : List ℕ) (hne : r ≠ [])
    (hinc : r.Chain' (· < ·)) (hb : β = [] ∨ β.headD 0 ≤ r.getLastD 0) :
    break_at_descents true (r ++ β) = r :: break_at_descents true β := by
  induction r with
  | nil => cases hne rfl
  | cons x r' ih =>
    cases r' with
    | nil =>
      rcases hb with h | h
      · subst h; rfl
      · cases β with
        | nil => rfl
        | cons y γ =>
          have hyx : y ≤ x := by
            simpa [List.getLastD_cons] using h
          have hcond : x > y ∨ (x = y ∧ (true : Bool) = true) := by
            rcases Nat.eq_or_lt_of_le hyx with h1 | h1
            · exact Or.inr ⟨h1.symm, rfl⟩
            · exact Or.inl h1
          show break_at_descents true (x :: y :: γ) = _
          rw [break_at_descents_two, if_pos hcond]
    | cons x' r'' =>
      have hlt : x < x' := (List.chain'_cons.mp hinc).1
      have hcond : ¬(x > x' ∨ (x = x' ∧ (true : Bool) = true)) := by
        rintro (hc | ⟨hc, -⟩) <;> omega
      have ihr : break_at_descents true ((x' :: r'') ++ β)
          = (x' :: r'') :: break_at_descents true β := by
        refine ih (by simp) (List.chain'_cons.mp hinc).2 ?_
        rcases hb with h | h
        · exact Or.inl h
        · right; rwa [getLastD_cons_cons] at h
      show break_at_descents true (x :: ((x' :: r'') ++ β)) = _
      rw [show x :: ((x' :: r'') ++ β) = x :: x' :: (r'' ++ β) from rfl,
        break_at_descents_two, if_neg hcond,
        show x' :: (r'' ++ β) = (x' :: r'') ++ β from rfl, ihr]
      rfl

/-- Uniqueness: a maximal strictly increasing run decomposition is exactly
what `_break_at_descents(·, weak=True)` computes. -/
theorem runs_eq_break (runs : List (List ℕ)) :
    (∀ r ∈ runs, r ≠ [] ∧ r.Chain' (· < ·)) → runs.Chain' RunBoundary →
    runs = break_at_descents true runs.flatten := by
  induction runs with
  | nil => intro _ _; rfl
  | cons r rs ih =>
    intro hruns hchain
    have h1 := hruns r (List.mem_cons_self _ _)
    have hstep : break_at_descents true (r ++ rs.flatten)
        = r :: break_at_descents true rs.flatten := by
      refine break_at_descents_append _ _ h1.1 h1.2 ?_
      cases rs with
      | nil => exact Or.inl rfl
      | cons s rs' =>
        right
        have hb : RunBoundary r s := (List.chain'_cons.mp hchain).1
        have hsne := (hruns s (List.mem_cons_of_mem _ (List.mem_cons_self _ _))).1
        cases s with
        | nil => cases hsne rfl
        | cons a s' => simpa [RunBoundary] using hb
    rw [List.flatten_cons, hstep]
    congr 1
    exact ih (fun x hx => hruns x (List.mem_cons_of_mem _ hx)) hchain.tail

/-- The decomposition into maximal strictly increasing runs is unique and
equals the output of `_break_at_descents(·, weak=True)`. -/
theorem isIncRunDecomp_iff (α : List ℕ) (runs : List (List ℕ)) :
    IsIncRunDecomp α runs ↔ runs = break_at_descents true α := by
  constructor
  · rintro ⟨hflat, hruns, hchain⟩
    rw [← hflat]
    exact runs_eq_break runs hruns hchain
  · rintro rfl
    exact isIncRunDecomp_break α

/- ### Size-n cardinality (claim C4) -/

theorem getD_replicate_zero : ∀ (k i : ℕ), (List.replicate k 0).getD i 0 = 0 := by
  intro k
  induction k with
  | zero => intro i; cases i <;> rfl
  | succ k ih => intro i; cases i with
    | zero => rfl
    | succ i => exact ih i

theorem polyAdd_getD : ∀ (p qs : List ℕ) (i : ℕ),
    (polyAdd p qs).getD i 0 = p.getD i 0 + qs.getD i 0 := by
  intro p
  induction p with
  | nil => intro qs i; cases qs <;> cases i <;> simp [polyAdd]
  | cons a p ih =>
    intro qs i
    cases qs with
    | nil => cases i <;> simp [polyAdd]
    | cons b qs =>
      cases i with
      | zero => rfl
      | succ i => exact ih qs i

theorem polyShift_getD (k : ℕ) (p : List ℕ) (i : ℕ) :
    (polyShift k p).getD i 0 = if i < k then 0 else p.getD (i - k) 0 := by
  unfold polyShift
  by_cases h : i < k
  · rw [if_pos h, List.getD_append _ _ _ _ (by simpa using h), getD_replicate_zero]
  · rw [if_neg h, List.getD_append_right _ _ _ _ (by simpa using Nat.le_of_not_lt h),
      List.length_replicate]

theorem boundedDistinct_succ_length (m e : ℕ) :
    (boundedDistinct (m+1) e).length = (boundedDistinct m e).length
      + (if m+1 ≤ e then (boundedDistinct m (e - (m+1))).length else 0) := by
  have h : boundedDistinct (m+1) e = boundedDistinct m e ++
      (if m+1 ≤ e then (boundedDistinct m (e - (m+1))).map (· ++ [m+1]) else []) := rfl
  rw [h, List.length_append]
  congr 1
  split <;> simp

theorem partsPoly_getD : ∀ (m e : ℕ),
    (partsPoly m).getD e 0 = (boundedDistinct m e).length := by
  intro m
  induction m with
  | zero =>
    intro e
    show ([1] : List ℕ).getD e 0 = _
    cases e with
    | zero => rfl
    | succ e => simp [boundedDistinct]
  | succ m ih =>
    intro e
    have hfold : partsPoly (m+1)
        = polyAdd (partsPoly m) (polyShift (m+1) (partsPoly m)) := by
      unfold partsPoly
      rw [List.range'_concat, List.foldl_concat]
      congr 2
      omega
    rw [hfold, polyAdd_getD, polyShift_getD, boundedDistinct_succ_length, ih]
    congr 1
    by_cases h : m + 1 ≤ e
    · rw [if_neg (by omega), if_pos h, ih]
    · rw [if_pos (by omega), if_neg h]

theorem partsPoly_length : ∀ m : ℕ, m < (partsPoly m).length := by
  intro m
  induction m with
  | zero => exact Nat.zero_lt_one
  | succ m ih =>
    have hfold : partsPoly (m+1)
        = polyAdd (partsPoly m) (polyShift (m+1) (partsPoly m)) := by
      unfold partsPoly
      rw [List.range'_concat, List.foldl_concat]
      congr 2
      omega
    have hlen : ∀ p qs : List ℕ, p.length ≤ (polyAdd p qs).length := by
      intro p
      induction p with
      | nil => intro qs; simp
      | cons a p ihp =>
        intro qs
        cases qs with
        | nil => simp [polyAdd]
        | cons b qs => simpa [polyAdd] using ihp qs
    have hshift : (polyShift (m+1) (partsPoly m)).length
        = (m+1) + (partsPoly m).length := by
      simp [polyShift]
    have hcomm : ∀ p qs : List ℕ, (polyAdd p qs).length = (polyAdd qs p).length := by
      intro p
      induction p with
      | nil => intro qs; cases qs <;> simp [polyAdd]
      | cons a p ihp =>
        intro qs
        cases qs with
        | nil => simp [polyAdd]
        | cons b qs => simpa [polyAdd] using ihp qs
    rw [hfold, hcomm]
    calc m + 1 < (m+1) + (partsPoly m).length := by omega
    _ = (polyShift (m+1) (partsPoly m)).length := hshift.symm
    _ ≤ _ := hlen _ _

theorem mem_distinctListsF : ∀ (fuel n lo : ℕ), n ≤ fuel → 1 ≤ lo →
    ∀ l : List ℕ,
    (l ∈ distinctListsF fuel lo n ↔
      l.Chain' (· < ·) ∧ (∀ x ∈ l, lo ≤ x) ∧ l.sum = n) := by
  intro fuel
  induction fuel with
  | zero =>
    intro n lo hn _ l
    interval_cases n
    show l ∈ [[]] ↔ _
    simp only [List.mem_singleton]
    constructor
    · rintro rfl
      refine ⟨List.chain'_nil, ?_, rfl⟩
      intro x hx
      cases hx
    · rintro ⟨_, hlo, hsum⟩
      cases l with
      | nil => rfl
      | cons x t =>
        have := hlo x (List.mem_cons_self _ _)
        simp only [List.sum_cons] at hsum
        omega
  | succ fuel ih =>
    intro n lo hn hlo l
    cases n with
    | zero =>
      show l ∈ [[]] ↔ _
      simp only [List.mem_singleton]
      constructor
      · rintro rfl
        refine ⟨List.chain'_nil, ?_, rfl⟩
        intro x hx
        cases hx
      · rintro ⟨_, hlo', hsum⟩
        cases l with
        | nil => rfl
        | cons x t =>
          have := hlo' x (List.mem_cons_self _ _)
          simp only [List.sum_cons] at hsum
          omega
    | succ m =>
      show l ∈ (List.range' lo (m + 2 - lo)).flatMap _ ↔ _
      simp only [List.mem_flatMap, List.mem_map, List.mem_range'_1]
      constructor
      · rintro ⟨s, hs, t, ht, rfl⟩
        have hs1 : lo ≤ s ∧ s ≤ m + 1 := by
          obtain ⟨h1, h2⟩ := hs
          omega
        obtain ⟨hch, hget, hsum⟩ := (ih (m + 1 - s) (s+1) (by omega) (by omega) t).mp ht
        refine ⟨?_, ?_, ?_⟩
        · cases t with
          | nil => exact List.chain'_singleton _
          | cons y t' =>
            refine List.chain'_cons.mpr ⟨?_, hch⟩
            have := hget y (List.mem_cons_self _ _)
            omega
        · intro x hx
          rcases List.mem_cons.mp hx with rfl | h
          · exact hs1.1
          · have := hget x h
            omega
        · simp only [List.sum_cons, hsum]
          omega
      · rintro ⟨hch, hget, hsum⟩
        cases l with
        | nil => simp at hsum
        | cons s t =>
          simp only [List.sum_cons] at hsum
          have hslo : lo ≤ s := hget s (List.mem_cons_self _ _)
          have htgt : ∀ y ∈ t, s < y :=
            (List.pairwise_cons.mp (List.chain'_iff_pairwise.mp hch)).1
          refine ⟨s, ⟨hslo, by omega⟩, t, ?_, rfl⟩
          refine (ih (m + 1 - s) (s+1) (by omega) (by omega) t).mpr
            ⟨(List.chain'_cons'.mp hch).2, ?_, by omega⟩
          intro y hy
          exact htgt y hy

theorem mem_distinctLists {lo n : ℕ} (hlo : 1 ≤ lo) {l : List ℕ} :
    l ∈ distinctLists lo n ↔
      l.Chain' (· < ·) ∧ (∀ x ∈ l, lo ≤ x) ∧ l.sum = n :=
  mem_distinctListsF n n lo le_rfl hlo l

theorem nodup_distinctListsF : ∀ (fuel lo n : ℕ),
    (distinctListsF fuel lo n).Nodup := by
  intro fuel
  induction fuel with
  | zero =>
    intro lo n
    cases n <;> simp [distinctListsF]
  | succ fuel ih =>
    intro lo n
    cases n with
    | zero => simp [distinctListsF]
    | succ m =>
      show ((List.range' lo (m + 2 - lo)).flatMap _).Nodup
      rw [List.nodup_flatMap]
      constructor
      · intro s _
        exact (ih (s+1) (m+1-s)).map (fun a b h => by injection h)
      · have hr : (List.range' lo (m + 2 - lo)).Nodup :=
          List.nodup_range' lo (m + 2 - lo) 1 Nat.one_pos
        refine hr.imp ?_
        intro s s' hne l hl hl'
        obtain ⟨t, _, rfl⟩ := List.mem_map.mp hl
        obtain ⟨t', _, he⟩ := List.mem_map.mp hl'
        exact hne (by injection he.symm)

theorem split_off_max {l : List ℕ} {m : ℕ} (hch : l.Chain' (· < ·))
    (hb : ∀ x ∈ l, x ≤ m + 1) (hm : m + 1 ∈ l) :
    l.dropLast ++ [m + 1] = l ∧ l.dropLast.Chain' (· < ·)
      ∧ ∀ x ∈ l.dropLast, x ≤ m := by
  have hne : l ≠ [] := List.ne_nil_of_mem hm
  have hsplit : l.dropLast ++ [l.getLast hne] = l := List.dropLast_append_getLast hne
  have hpw : (l.dropLast ++ [l.getLast hne]).Pairwise (· < ·) := by
    rw [hsplit]
    exact List.chain'_iff_pairwise.mp hch
  have hlt : ∀ x ∈ l.dropLast, x < l.getLast hne := by
    intro x hx
    exact (List.pairwise_append.mp hpw).2.2 x hx _ (List.mem_singleton_self _)
  have hgl : l.getLast hne = m + 1 := by
    have hmm : m + 1 ∈ l.dropLast ++ [l.getLast hne] := by rw [hsplit]; exact hm
    rcases List.mem_append.mp hmm with h | h
    · have h1 := hlt _ h
      have h2 := hb (l.getLast hne) (List.getLast_mem hne)
      omega
    · exact (List.mem_singleton.mp h).symm
  refine ⟨by rw [← hgl]; exact hsplit, ?_, ?_⟩
  · exact List.chain'_iff_pairwise.mpr (List.pairwise_append.mp hpw).1
  · intro x hx
    have := hlt x hx
    omega

theorem mem_boundedDistinct : ∀ (m e : ℕ) (l : List ℕ),
    l ∈ boundedDistinct m e ↔
      l.Chain' (· < ·) ∧ (∀ x ∈ l, 1 ≤ x ∧ x ≤ m) ∧ l.sum = e := by
  intro m
  induction m with
  | zero =>
    intro e l
    show l ∈ (if e = 0 then [[]] else []) ↔ _
    split
    · rename_i he
      subst he
      simp only [List.mem_singleton]
      constructor
      · rintro rfl
        refine ⟨List.chain'_nil, ?_, rfl⟩
        intro x hx
        cases hx
      · rintro ⟨_, hb, hsum⟩
        cases l with
        | nil => rfl
        | cons x t =>
          have := hb x (List.mem_cons_self _ _)
          omega
    · rename_i he
      simp only [List.not_mem_nil, false_iff]
      rintro ⟨_, hb, hsum⟩
      cases l with
      | nil => exact he hsum.symm
      | cons x t =>
        have := hb x (List.mem_cons_self _ _)
        omega
  | succ m ih =>
    intro e l
    show l ∈ boundedDistinct m e ++ _ ↔ _
    rw [List.mem_append]
    constructor
    · rintro (h | h)
      · obtain ⟨hch, hb, hsum⟩ := (ih e l).mp h
        exact ⟨hch, fun x hx =>
          ⟨(hb x hx).1, Nat.le_succ_of_le (hb x hx).2⟩, hsum⟩
      · by_cases hme : m + 1 ≤ e
        · rw [if_pos hme] at h
          obtain ⟨y, hy, rfl⟩ := List.mem_map.mp h
          obtain ⟨hch, hb, hsum⟩ := (ih _ y).mp hy
          refine ⟨?_, ?_, ?_⟩
          · refine List.chain'_append.mpr ⟨hch, List.chain'_singleton _, ?_⟩
            intro x hx z hz
            have hz1 : m + 1 = z := by simpa using hz
            subst hz1
            have hxy : x ∈ y := List.mem_of_mem_getLast? hx
            have := (hb x hxy).2
            omega
          · intro x hx
            rcases List.mem_append.mp hx with hx | hx
            · exact ⟨(hb x hx).1, Nat.le_succ_of_le (hb x hx).2⟩
            · rcases List.mem_singleton.mp hx with rfl
              exact ⟨by omega, le_rfl⟩
          · simp only [List.sum_append, List.sum_cons, List.sum_nil, hsum]
            omega
        · rw [if_neg hme] at h
          cases h
    · rintro ⟨hch, hb, hsum⟩
      by_cases hm : m + 1 ∈ l
      · right
        have hb' : ∀ x ∈ l, x ≤ m + 1 := fun x hx => (hb x hx).2
        obtain ⟨heq, hych, hyb⟩ := split_off_max hch hb' hm
        have hme : m + 1 ≤ e := by
          rw [← hsum]
          exact List.single_le_sum (fun x _ => Nat.zero_le x) _ hm
        rw [if_pos hme]
        refine List.mem_map.mpr ⟨l.dropLast, (ih _ _).mpr ⟨hych, ?_, ?_⟩, heq⟩
        · intro x hx
          have hxl : x ∈ l := (List.dropLast_sublist l).subset hx
          exact ⟨(hb x hxl).1, hyb x hx⟩
        · have : l.dropLast.sum + (m + 1) = e := by
            rw [← hsum, ← heq]
            simp
          omega
      · left
        refine (ih e l).mpr ⟨hch, ?_, hsum⟩
        intro x hx
        have h2 := (hb x hx).2
        have : x ≠ m + 1 := fun h => hm (h ▸ hx)
        exact ⟨(hb x hx).1, by omega⟩

theorem nodup_boundedDistinct : ∀ (m e : ℕ), (boundedDistinct m e).Nodup := by
  intro m
  induction m with
  | zero => intro e; cases e <;> simp [boundedDistinct]
  | succ m ih =>
    intro e
    show (boundedDistinct m e ++ _).Nodup
    refine List.Nodup.append (ih e) ?_ ?_
    · split
      · exact (ih _).map fun a b h => by
          have := congrArg List.dropLast h
          simpa using this
      · exact List.nodup_nil
    · intro l hl hl'
      obtain ⟨_, hb, _⟩ := (mem_boundedDistinct m e l).mp hl
      split at hl'
      · obtain ⟨y, _, rfl⟩ := List.mem_map.mp hl'
        have : m + 1 ∈ y ++ [m+1] := by simp
        have := (hb _ this).2
        omega
      · cases hl'

theorem boundedDistinct_length_eq {m e : ℕ} (he : e ≤ m) :
    (boundedDistinct m e).length = numDistinctPartitions e := by
  unfold numDistinctPartitions
  have hperm : List.Perm (boundedDistinct m e) (distinctLists 1 e) := by
    rw [List.perm_ext_iff_of_nodup (nodup_boundedDistinct m e)
      (show (distinctLists 1 e).Nodup from nodup_distinctListsF e 1 e)]
    intro l
    rw [mem_boundedDistinct, mem_distinctLists le_rfl]
    constructor
    · rintro ⟨hch, hb, hsum⟩
      exact ⟨hch, fun x hx => (hb x hx).1, hsum⟩
    · rintro ⟨hch, hb, hsum⟩
      refine ⟨hch, fun x hx => ⟨hb x hx, ?_⟩, hsum⟩
      calc x ≤ l.sum := List.single_le_sum (fun y _ => Nat.zero_le y) _ hx
      _ = e := hsum
      _ ≤ m := he
  exact hperm.length_eq

theorem filter_enumFrom_getD : ∀ (p : List ℕ) (k d : ℕ), d < p.length →
    (∀ i, i ≤ d → p.getD i 0 ≠ 0) →
    ((List.enumFrom k p).filter (fun e => e.2 ≠ 0)).getD d (0, 0)
      = (k + d, p.getD d 0) := by
  intro p
  induction p with
  | nil =>
    intro k d hd _
    simp at hd
  | cons a p ih =>
    intro k d hd hnz
    have ha : a ≠ 0 := hnz 0 (Nat.zero_le d)
    show ((((k, a) : ℕ × ℕ) :: List.enumFrom (k+1) p).filter _).getD d (0,0) = _
    rw [List.filter_cons, if_pos (by simpa using ha)]
    cases d with
    | zero => rfl
    | succ d =>
      have hlen : d < p.length := by simpa using hd
      have hnz' : ∀ i, i ≤ d → p.getD i 0 ≠ 0 := by
        intro i hi
        exact hnz (i+1) (by omega)
      show (_ : List (ℕ × ℕ)).getD (d+1) (0,0) = _
      rw [List.getD_cons_succ, ih (k+1) d hlen hnz']
      show (k + 1 + d, _) = (k + (d + 1), _)
      rw [Prod.mk.injEq]
      exact ⟨by omega, rfl⟩

theorem partspoly_coeff_eq {n d : ℕ} (hd : d ≤ n) :
    partspoly_coeff n d = (partsPoly n).getD d 0 := by
  unfold partspoly_coeff coeffPairs
  have hlen : d < (partsPoly n).length := lt_of_le_of_lt hd (partsPoly_length n)
  have hnz : ∀ i, i ≤ d → (partsPoly n).getD i 0 ≠ 0 := by
    intro i hi
    rw [partsPoly_getD]
    have hmem : (if i = 0 then [] else [i]) ∈ boundedDistinct n i := by
      split
      · rename_i hi0
        subst hi0
        refine (mem_boundedDistinct n 0 []).mpr ⟨List.chain'_nil, ?_, rfl⟩
        intro x hx
        cases hx
      · rename_i hi0
        have hin : i ≤ n := le_trans hi hd
        refine (mem_boundedDistinct n i [i]).mpr
          ⟨List.chain'_singleton _, ?_, by simp⟩
        intro x hx
        rcases List.mem_singleton.mp hx with rfl
        exact ⟨by omega, hin⟩
    have := List.length_pos.mpr (List.ne_nil_of_mem hmem)
    omega
  rw [show (partsPoly n).enum = List.enumFrom 0 (partsPoly n) from rfl,
    filter_enumFrom_getD _ 0 d hlen hnz]

theorem cardinality_n_eq : ∀ n : ℕ, cardinality_n n = formula_C4 n := by
  intro n
  by_cases h : n ≤ 5
  · interval_cases n <;> decide
  · unfold cardinality_n formula_C4
    rw [if_neg h]
    congr 1
    refine List.map_congr_left ?_
    intro α hα
    congr 1
    refine List.map_congr_left ?_
    intro a ha
    obtain ⟨hsum, _⟩ := mem_comps.mp hα
    have haN : a ≤ n := by
      rw [← hsum]
      exact List.single_le_sum (fun x _ => Nat.zero_le x) _ ha
    rw [partspoly_coeff_eq haN, partsPoly_getD, boundedDistinct_length_eq haN]

theorem sum_map_const (L : List (List (List ℕ))) (k : ℕ) :
    (L.map (fun _ => k)).sum = L.length * k := by
  induction L with
  | nil => simp
  | cons x L ih =>
    simp only [List.map_cons, List.sum_cons, List.length_cons, ih]
    ring

theorem length_sections : ∀ (L : List (List (List ℕ))),
    L.sections.length = (L.map List.length).prod := by
  intro L
  induction L with
  | nil => rfl
  | cons l L ih =>
    show ((List.sections L).flatMap fun s => l.map fun a => a :: s).length = _
    rw [List.length_flatMap]
    have hconst : ((List.sections L).map (List.length ∘ fun s => l.map fun a => a :: s))
        = (List.sections L).map (fun _ => l.length) := by
      refine List.map_congr_left ?_
      intro s _
      simp
    rw [hconst, sum_map_const, ih]
    simp [List.map_cons, List.prod_cons, Nat.mul_comm]

theorem forall₂_exists_right {r : List ℕ → ℕ → Prop} :
    ∀ {c : OMP} {α : List ℕ}, List.Forall₂ r c α →
    ∀ B ∈ c, ∃ a ∈ α, r B a := by
  intro c α h
  induction h with
  | nil => intro B hB; cases hB
  | @cons B' a c' α' hr _ ih =>
    intro B hB
    rcases List.mem_cons.mp hB with rfl | hB'
    · exact ⟨a, List.mem_cons_self _ _, hr⟩
    · obtain ⟨a', ha', hra'⟩ := ih B hB'
      exact ⟨a', List.mem_cons_of_mem _ ha', hra'⟩

theorem flatten_sum_of_forall₂ : ∀ {c : OMP} {α : List ℕ},
    List.Forall₂ (fun B a => B ∈ distinctLists 1 a) c α →
    c.flatten.sum = α.sum := by
  intro c α h
  induction h with
  | nil => rfl
  | @cons B a c' α' hBa _ ih =>
    have hs := ((mem_distinctLists le_rfl).mp hBa).2.2
    simp only [List.flatten_cons, List.sum_append, List.sum_cons, ih, hs]

theorem map_sum_of_forall₂ : ∀ {c : OMP} {α : List ℕ},
    List.Forall₂ (fun B a => B ∈ distinctLists 1 a) c α →
    α = c.map List.sum := by
  intro c α h
  induction h with
  | nil => rfl
  | @cons B a c' α' hBa _ ih =>
    have hs := ((mem_distinctLists le_rfl).mp hBa).2.2
    simp only [List.map_cons, ← hs, ih]

theorem sum_map_sum (c : OMP) : (c.map List.sum).sum = c.flatten.sum := by
  induction c with
  | nil => rfl
  | cons B c' ih =>
    simp only [List.map_cons, List.sum_cons, List.flatten_cons,
      List.sum_append, ih]

theorem mem_ompsOfSize {n : ℕ} {c : OMP} :
    c ∈ ompsOfSize n ↔ SizedOMP n c := by
  unfold ompsOfSize
  rw [List.mem_flatMap]
  constructor
  · rintro ⟨α, hα, hc⟩
    have hf : List.Forall₂ (fun B a => B ∈ distinctLists 1 a) c α :=
      List.forall₂_map_right_iff.mp (List.mem_sections.mp hc)
    obtain ⟨hsum, hpos⟩ := mem_comps.mp hα
    have hblocks : ∀ B ∈ c, B.Chain' (· < ·) ∧ (∀ x ∈ B, 1 ≤ x) ∧ B ≠ [] := by
      intro B hB
      obtain ⟨a, ha, hBa⟩ := forall₂_exists_right hf B hB
      obtain ⟨hch, hge, hs⟩ := (mem_distinctLists le_rfl).mp hBa
      refine ⟨hch, hge, ?_⟩
      intro hBnil
      subst hBnil
      simp only [List.sum_nil] at hs
      have := hpos a ha
      omega
    refine ⟨?_, ?_, ?_⟩
    · exact fun B hB => ⟨(hblocks B hB).2.2, (hblocks B hB).1⟩
    · exact fun B hB x hx => (hblocks B hB).2.1 x hx
    · rw [flatten_sum_of_forall₂ hf, hsum]
  · rintro ⟨hval, hpos, hsum⟩
    refine ⟨c.map List.sum, ?_, ?_⟩
    · refine mem_comps.mpr ⟨?_, ?_⟩
      · rw [sum_map_sum]
        exact hsum
      · intro x hx
        obtain ⟨B, hB, rfl⟩ := List.mem_map.mp hx
        cases B with
        | nil => exact absurd rfl (hval [] hB).1
        | cons y B' =>
          have := hpos _ hB y (List.mem_cons_self _ _)
          simp only [List.sum_cons]
          omega
    · refine List.mem_sections.mpr (List.forall₂_map_right_iff.mpr
        (List.forall₂_map_right_iff.mpr ?_))
      refine List.forall₂_same.mpr ?_
      intro B hB
      exact (mem_distinctLists le_rfl).mpr
        ⟨(hval B hB).2, fun x hx => hpos B hB x hx, rfl⟩

theorem nodup_sections : ∀ (L : List (List (List ℕ))),
    (∀ l ∈ L, l.Nodup) → L.sections.Nodup := by
  intro L
  induction L with
  | nil => intro _; simp
  | cons l L ih =>
    intro h
    show ((List.sections L).flatMap fun s => l.map fun a => a :: s).Nodup
    rw [List.nodup_flatMap]
    constructor
    · intro s _
      exact (h l (List.mem_cons_self _ _)).map fun a b hab => by injection hab
    · refine (ih (fun l' hl' => h l' (List.mem_cons_of_mem _ hl'))).imp ?_
      intro s s' hne x hx hx'
      obtain ⟨a, _, rfl⟩ := List.mem_map.mp hx
      obtain ⟨a', _, he⟩ := List.mem_map.mp hx'
      exact hne (by injection he.symm)

theorem nodup_compsF : ∀ (fuel n : ℕ), (compsF fuel n).Nodup := by
  intro fuel
  induction fuel with
  | zero => intro n; cases n <;> simp [compsF]
  | succ fuel ih =>
    intro n
    cases n with
    | zero => simp [compsF]
    | succ m =>
      show ((List.range (m+1)).flatMap _).Nodup
      rw [List.nodup_flatMap]
      constructor
      · intro i _
        exact (ih (m - i)).map fun a b hab => by injection hab
      · refine (List.nodup_range (m+1)).imp ?_
        intro i i' hne x hx hx'
        obtain ⟨t, _, rfl⟩ := List.mem_map.mp hx
        obtain ⟨t', _, he⟩ := List.mem_map.mp hx'
        have : i + 1 = i' + 1 := by injection he.symm
        omega

theorem nodup_ompsOfSize (n : ℕ) : (ompsOfSize n).Nodup := by
  unfold ompsOfSize
  rw [List.nodup_flatMap]
  constructor
  · intro α _
    refine nodup_sections _ ?_
    intro l hl
    obtain ⟨a, _, rfl⟩ := List.mem_map.mp hl
    exact nodup_distinctListsF a 1 a
  · refine (nodup_compsF n n).imp ?_
    intro α α' hne c hc hc'
    have h1 := map_sum_of_forall₂
      (List.forall₂_map_right_iff.mp (List.mem_sections.mp hc))
    have h2 := map_sum_of_forall₂
      (List.forall₂_map_right_iff.mp (List.mem_sections.mp hc'))
    exact hne (h1.trans h2.symm)

theorem length_ompsOfSize (n : ℕ) : (ompsOfSize n).length = formula_C4 n := by
  unfold ompsOfSize formula_C4
  rw [List.length_flatMap]
  congr 1
  refine List.map_congr_left ?_
  intro α _
  show ((α.map (fun a => distinctLists 1 a)).sections).length = _
  rw [length_sections, List.map_map]
  rfl

/- ### Claim theorems C2 and C10 -/

/-- C2: for every ordered multiset partition, `minimaj()` equals the sum
over descents of its minimaj word of (0-indexed descent position + 1),
i.e. the sum of descent positions plus the number of descents; it is `0`
on the empty partition, and on
`[{1,5,7},{2,4},{5,6},{4,6,8},{1,3},{1,2,3}]` it equals `30`. -/
theorem claim_C2 :
    (∀ c : OMP, minimaj c = ((descents (minimaj_word c)).map (· + 1)).sum)
    ∧ minimaj [] = 0
    ∧ minimaj [[1,5,7],[2,4],[5,6],[4,6,8],[1,3],[1,2,3]] = 30 :=
  ⟨minimaj_eq_sum_succ, rfl, by decide⟩

/-- C1 (counterexample): the claim's formula — summing `2^(L-1)` over the
maximal weakly-decreasing runs of each permutation — gives `8` on the
multiset `{1,1,4}`, while the family of ordered multiset partitions of
`{1,1,4}` consists of exactly the five listed partitions and the code's
cardinality returns `5`; moreover on the empty multiset the code returns
`0`, not the claimed `1` (although the formula does give `1` there). -/
theorem claim_C1_counterexample :
    spec_formula_C1 [1,1,4] = 8
    ∧ iterator_weight [1,1,4] =
        [[[1],[1,4]], [[1],[1],[4]], [[1,4],[1]], [[1],[4],[1]], [[4],[1],[1]]]
    ∧ cardinality_X [1,1,4] = 5
    ∧ spec_formula_C1 [] = 1
    ∧ cardinality_X [] = 0 := by decide

/-- C1 (amended): for every fixed nonempty multiset `X`, the code's
cardinality equals the sum, over all distinct permutations of the flattened
multiset, of the product of `2^(L-1)` over the maximal *strictly increasing*
runs of length `L` of that permutation (`_break_at_descents(·, weak=True)`
computes exactly that unique run decomposition); the family with weight
`{1:2, 4:1}` has cardinality `5`, matching its five-element enumeration; on
the empty multiset the code returns `0` even though its enumerator yields
exactly the empty partition. -/
theorem claim_C1_amended :
    (∀ (α : List ℕ) (runs : List (List ℕ)),
        IsIncRunDecomp α runs ↔ runs = break_at_descents true α)
    ∧ (∀ X : List ℕ, X ≠ [] → cardinality_X X =
        ((permsOfMset X).map (fun α =>
          ((break_at_descents true α).map (fun k => 2 ^ (k.length - 1))).prod)).sum)
    ∧ iterator_weight [1,1,4] =
        [[[1],[1,4]], [[1],[1],[4]], [[1,4],[1]], [[1],[4],[1]], [[4],[1],[1]]]
    ∧ cardinality_X [1,1,4] = 5
    ∧ cardinality_X [] = 0
    ∧ iterator_weight [] = [[]] := by
  refine ⟨isIncRunDecomp_iff, fun X hX => ?_, by decide, by decide, by decide, by decide⟩
  rw [cardinality_X, if_neg hX]

/-- Witness for `claim_C1_amended` at the concrete multiset `{1,1,4}`. -/
theorem claim_C1_amended_witness :
    ([1,1,4] : List ℕ) ≠ [] ∧ cardinality_X [1,1,4] =
      ((permsOfMset [1,1,4]).map (fun α =>
        ((break_at_descents true α).map (fun k => 2 ^ (k.length - 1))).prod)).sum :=
  ⟨by decide, claim_C1_amended.2.1 [1,1,4] (by decide)⟩

/-- The fuelled closure is contained in every operator-closed superset of
the generators: the crystal's element set is the least such set. -/
theorem crystal_closure_subset (n : ℕ) : ∀ (fuel : ℕ)
    (S T : List (List ℕ × List ℕ)), S ⊆ T →
    (∀ x ∈ T, ∀ y ∈ crystal_ops n x, y ∈ T) →
    ∀ z ∈ crystal_closure n fuel S, z ∈ T := by
  intro fuel
  induction fuel with
  | zero =>
    intro S T hS _ z hz
    exact hS hz
  | succ fuel ih =>
    intro S T hS hT z hz
    refine ih _ T ?_ hT z hz
    intro y hy
    rcases List.mem_append.mp (List.mem_dedup.mp hy) with h | h
    · exact hS h
    · obtain ⟨x, hx, hyx⟩ := List.mem_flatMap.mp h
      exact hT x (hS hx) y hyx

/-- C3: applying the tableau bijection and then its inverse recovers the
partition: for every `c` in the finite family of order 4 with 2 blocks over
`{1,2,3}` (the crystal family of Scenario 5), and likewise for every `c` in
the 81-element family of order 6 with 3 blocks over `{1,2,3}` (the family
of the source's own `from_tableau` test), `from_tableau(c.to_tableau())`
rebuilds exactly the minimaj blocks of `c` and hence `c` itself. -/
theorem claim_C3 :
    (∀ c ∈ iterator_order [1,2,3] 4 2,
      from_tableau_omp (to_tableau c) = c
      ∧ to_minimaj_blocks (to_tableau c) = minimaj_blocks c)
    ∧ (∀ c ∈ iterator_order [1,2,3] 6 3,
      from_tableau_omp (to_tableau c) = c) := by
  constructor
  · decide
  · set_option maxHeartbeats 1000000 in decide

/-- Witness for `claim_C3` at the partition `[{2,3},{1,2}]`. -/
theorem claim_C3_witness :
    (([[2,3],[1,2]] : OMP) ∈ iterator_order [1,2,3] 4 2)
    ∧ from_tableau_omp (to_tableau [[2,3],[1,2]]) = [[2,3],[1,2]]
    ∧ to_minimaj_blocks (to_tableau [[2,3],[1,2]])
        = minimaj_blocks [[2,3],[1,2]] :=
  ⟨by decide, (claim_C3.1 [[2,3],[1,2]] (by decide)).1,
    (claim_C3.1 [[2,3],[1,2]] (by decide)).2⟩

/-- C5: the minimaj crystal with `n = 3`, `ell = 4`, `k = 2` has exactly
15 elements, and this equals the cardinality of the family of ordered
multiset partitions over alphabet `{1,2,3}` of order 4 with 2 blocks: the
closure of the generators under the crystal operators has 15 elements, it
contains every generator, it is closed under every `e(i)`/`f(i)`, and it is
contained in every operator-closed set containing the generators (so it is
exactly the crystal); the family list also has 15 elements. -/
theorem claim_C5 :
    minimajCrystal342.length = 15
    ∧ (iterator_order [1,2,3] 4 2).length = 15
    ∧ minimaj_crystal_gens 3 4 2 ⊆ minimajCrystal342
    ∧ (∀ x ∈ minimajCrystal342, ∀ y ∈ crystal_ops 3 x, y ∈ minimajCrystal342)
    ∧ (∀ T : List (List ℕ × List ℕ), minimaj_crystal_gens 3 4 2 ⊆ T →
        (∀ x ∈ T, ∀ y ∈ crystal_ops 3 x, y ∈ T) →
        ∀ z ∈ minimajCrystal342, z ∈ T) := by
  refine ⟨by decide, by decide, by decide, by decide, ?_⟩
  intro T hS hT z hz
  exact crystal_closure_subset 3 4 _ T hS hT z hz

/-- Witness for `claim_C5`: its minimality part applied to the concrete
operator-closed set `minimajCrystal342` and one concrete element. -/
theorem claim_C5_witness :
    (minimaj_crystal_gens 3 4 2 ⊆ minimajCrystal342)
    ∧ (([3,2,3,1], [0,2,2,4]) : List ℕ × List ℕ) ∈ minimajCrystal342 :=
  ⟨by decide, claim_C5.2.2.2.2 minimajCrystal342 (by decide) (by decide)
    ([3,2,3,1], [0,2,2,4]) (by decide)⟩

/-- C4: for every nonnegative integer `n`, the cardinality of the family of
ordered multiset partitions of size `n` equals the sum over integer
compositions of `n` of the product over parts of the number of partitions
into distinct positive parts: the code's `cardinality()` computes that
formula for every `n`, the formula counts exactly the enumerated family
(which lists each partition of size `n` once, with no duplicates), and the
values at `n = 0, …, 5` are `1, 1, 2, 5, 11, 25` (in particular
`cardinality(3) = 5`). -/
theorem claim_C4 :
    (∀ n : ℕ, cardinality_n n = formula_C4 n)
    ∧ (∀ n : ℕ, (ompsOfSize n).length = formula_C4 n)
    ∧ (∀ n : ℕ, (ompsOfSize n).Nodup)
    ∧ (∀ (n : ℕ) (c : OMP), c ∈ ompsOfSize n ↔ SizedOMP n c)
    ∧ [cardinality_n 0, cardinality_n 1, cardinality_n 2, cardinality_n 3,
        cardinality_n 4, cardinality_n 5] = [1, 1, 2, 5, 11, 25] :=
  ⟨cardinality_n_eq, length_ompsOfSize, nodup_ompsOfSize,
    fun _ _ => mem_ompsOfSize, by decide⟩

/-- C7 (code bug): `is_finer` must be the membership test in
`other.finer()`, and in particular `is_finer(a, a)` must return `True`
since `a ∈ a.finer()`; instead the prefix-trimming loop runs both lists
empty and raises `IndexError` (modelled by `none`), here shown at
`a = b = [{1}]` together with the membership fact the claim requires, and
with the three doctested calls, which the model reproduces. -/
theorem claim_C7 :
    is_finer [[1]] [[1]] = none
    ∧ (([[1]] : OMP) ∈ finer false [[1]])
    ∧ is_finer [[4],[1],[2]] [[1,4],[2]] = some true
    ∧ is_finer [[1],[4],[2]] [[1,4],[2]] = some true
    ∧ is_finer [[1,4],[1],[1]] [[1,4],[2]] = some false := by decide

/-- C8 (code bug): on the all-numeric doctest pair
`C = [{1,2},{1,2,3},{1,2},{3},{1}]` and `D4 = [{1,2},{2,3},{1,3},{1,2},{1}]`
(equal size, order and length) `soll_gt` reaches the numeric lexicographic
branch, which rebinds `co1`/`co2` but returns the never-assigned `w1 > w2`:
a `NameError` (modelled by `none`) instead of the documented boolean `True`
(the comparison keyed by `[sum] ++ sorted contents`, which yields `true`);
the size/order/length doctests, which stop before that branch, agree with
the model. -/
theorem claim_C8 :
    soll_gt [[1,2],[1,2,3],[1,2],[3],[1]] [[1,2],[2,3],[1,3],[1,2],[1]] = none
    ∧ soll_numeric_lex_gt [[1,2],[1,2,3],[1,2],[3],[1]]
        [[1,2],[2,3],[1,3],[1,2],[1]] = true
    ∧ soll_gt [[1,2],[1,2,3],[1,2],[3],[1]] [[2,4],[2,3]] = some true
    ∧ soll_gt [[1,2],[1,2,3],[1,2],[3],[1]]
        [[1,2],[1,2,3],[1,2],[1],[1,2]] = some false
    ∧ soll_gt [[1,2],[1,2,3],[1,2],[3],[1]]
        [[1],[1,2,3],[1,2,3],[1,2]] = some true := by decide

/-- C9 (counterexample): constructing a family with the unknown constraint
keyword `"foo"` does not fail — `__classcall_private__` and `__init__`
never validate the keys, so the generic family is built with the unknown
key stored among its constraints. -/
theorem claim_C9_counterexample :
    omp_classcall [("foo", CVal.nat 3)] = .ok [("foo", CVal.nat 3)] := rfl

/-- C9 (amended): construction with a constraint keyword outside the
recognised set succeeds silently instead of raising; the unknown key is
stored, and because its `pass_test` yields no verdict (`None`, falsy in
python) every candidate partition fails the membership filter, so the
family behaves as empty.  A contradictory `min_length > max_length` bound,
by contrast, does raise at construction time. -/
theorem claim_C9_amended :
    omp_classcall [("foo", CVal.nat 3)] = .ok [("foo", CVal.nat 3)]
    ∧ pass_test [] ("foo", CVal.nat 3) = none
    ∧ (∀ c : OMP, satisfies_constraints [("foo", CVal.nat 3)] c = false)
    ∧ omp_classcall [("min_length", CVal.nat 5), ("max_length", CVal.nat 2)]
        = .error ("AssertionError: min exceeds max") := by
  exact ⟨rfl, rfl, fun c => rfl, rfl⟩

/-- C10: for every ordered multiset partition `c`, sorting the minimaj word
in increasing order yields exactly `c.multiset()`: the minimaj block
reordering neither adds, drops nor changes a letter. -/
theorem claim_C10 : ∀ c : OMP, sortNat (minimaj_word c) = multiset c :=
  sort_minimaj_word

end OMPVerify
